import Mathlib

/-!
Shallow embedding of the item-level AST lowering stage
(`src/compiler/rustc_ast_lowering/src/item.rs`) and proofs about its
documented behaviour.  Each sub-namespace models the slice of the lowering
context state and the lowering routines relevant to one group of claims,
translated directly from the source.
-/

namespace ItemLowering

/-! ## Body lowering frame effect (`lower_body` / `record_body`) -/

namespace BodyFrame

/-- A recorded body: the generator kind captured at recording time, the
parameter hir-ids and the result-expression hir-id
(`hir::Body { generator_kind, params, value }` built in `record_body`). -/
structure Body where
  genKind : Option Nat
  params : List Nat
  value : Nat
deriving Repr, DecidableEq

/-- The slice of `LoweringContext` state that `lower_body` reads and writes:
`generator_kind`, `task_context` and the global body table `bodies`. -/
structure St where
  genKind : Option Nat
  taskCtx : Option Nat
  bodies : List (Nat × Body)
deriving Repr, DecidableEq

/-- `record_body`: builds a `hir::Body` from the current `generator_kind`
field and inserts it into the body table keyed by the body id (which in the
source is derived from the value expression's hir-id). -/
def recordBody (params : List Nat) (value : Nat) (s : St) : Nat × St :=
  let b : Body := ⟨s.genKind, params, value⟩
  (value, { s with bodies := (value, b) :: s.bodies })

/-- `lower_body`: takes (clears) `generator_kind` and `task_context`, runs the
body-producing closure `f`, records the resulting body, then writes the saved
values back into both fields. -/
def lowerBody (f : St → (List Nat × Nat) × St) (s : St) : Nat × St :=
  let prevGen := s.genKind
  let prevTask := s.taskCtx
  let s1 : St := { s with genKind := none, taskCtx := none }
  let pr := f s1
  let s2 := pr.2
  let r := recordBody pr.1.1 pr.1.2 s2
  (r.1, { r.2 with taskCtx := prevTask, genKind := prevGen })

end BodyFrame

/-! ## In-scope lifetime stack discipline
(`without_in_scope_lifetime_defs` / `with_parent_item_lifetime_defs`) -/

namespace LtScopes

/-- The slice of `LoweringContext` state the two scope combinators touch:
the `in_scope_lifetimes` stack and the transient `lifetimes_to_define`
collection list (lifetime names are abstracted as `Nat`). -/
structure St where
  inScope : List Nat
  toDefine : List Nat
deriving Repr, DecidableEq

/-- The shape of computations over the lifetime stack performed while
lowering items: pushing a collected lifetime, sequencing, and the two scope
combinators of `item.rs`.  `withoutDefs` is `without_in_scope_lifetime_defs`
(clear the stack, assert `lifetimes_to_define` empty, run, assert the stack
empty, restore); `withParent` is `with_parent_item_lifetime_defs` (remember
the length, extend with the parent's declared lifetime names, run, truncate
back to the remembered length). -/
inductive Prog where
  | skip
  | push (n : Nat)
  | seq (p q : Prog)
  | withoutDefs (p : Prog)
  | withParent (names : List Nat) (p : Prog)
deriving Repr

/-- Run a lifetime-stack program.  The `assert!` calls of the source are
modelled as `Except.error` (an internal fault aborting the run). -/
def runLt : Prog → St → Except String St
  | .skip, s => .ok s
  | .push n, s => .ok { s with inScope := s.inScope ++ [n] }
  | .seq p q, s =>
    match runLt p s with
    | .error e => .error e
    | .ok s1 => runLt q s1
  | .withoutDefs p, s =>
    let old := s.inScope
    if !s.toDefine.isEmpty then .error "lifetimes_to_define must be empty between items"
    else
      match runLt p { s with inScope := [] } with
      | .error e => .error e
      | .ok s1 =>
        if !s1.inScope.isEmpty then .error "in_scope_lifetimes must be empty after a nested item"
        else .ok { s1 with inScope := old }
  | .withParent names p, s =>
    let oldLen := s.inScope.length
    match runLt p { s with inScope := s.inScope ++ names } with
    | .error e => .error e
    | .ok s1 => .ok { s1 with inScope := s1.inScope.take oldLen }

end LtScopes

/-! ## Calling-convention (ABI) lowering (`lower_abi` / `error_on_invalid_abi` /
`lower_extern`). The ABI lookup table lives in the external collaborator
`rustc_target::spec::abi`, so `lookup` is a parameter of the model. -/

namespace AbiLower

/-- The lowered calling convention.  `rust` is `abi::Abi::Rust`, the fixed
default substituted for an invalid explicit ABI string; `c` is `abi::Abi::C`,
substituted for a bare `extern` without a string. -/
inductive Abi where
  | rust
  | c
  | named (s : String)
deriving Repr, DecidableEq

/-- An ABI string literal with its source span (`ast::StrLit`). -/
structure StrLit where
  symbol : String
  span : Nat
deriving Repr, DecidableEq

/-- A structured diagnostic as handed to the sink by
`error_on_invalid_abi`: error code, primary span, message, span label and
remediation (help) text. -/
structure Diag where
  code : String
  span : Nat
  msg : String
  label : String
  help : String
deriving Repr, DecidableEq

/-- The diagnostic built by `error_on_invalid_abi`. -/
def invalidAbiDiag (allNames : String) (a : StrLit) : Diag :=
  { code := "E0703"
  , span := a.span
  , msg := "invalid ABI: found `" ++ a.symbol ++ "`"
  , label := "invalid ABI"
  , help := "valid ABIs: " ++ allNames }

/-- `lower_abi`: look the string up in the ABI table; on failure report one
diagnostic and substitute `Abi::Rust`. The diagnostic list is the sink. -/
def lowerAbi (lookup : String → Option Abi) (allNames : String)
    (a : StrLit) (ds : List Diag) : Abi × List Diag :=
  match lookup a.symbol with
  | some x => (x, ds)
  | none => (Abi.rust, ds ++ [invalidAbiDiag allNames a])

/-- The surface extern marker (`ast::Extern`). -/
inductive ExtMode where
  | noAbi
  | implicit
  | explicitAbi (a : StrLit)
deriving Repr, DecidableEq

/-- `lower_extern`: no marker means `Abi::Rust`, a bare marker means `Abi::C`
(plus a lint, which is not an error diagnostic), an explicit string goes
through `lowerAbi`. -/
def lowerExt (lookup : String → Option Abi) (allNames : String)
    (e : ExtMode) (ds : List Diag) : Abi × List Diag :=
  match e with
  | .noAbi => (Abi.rust, ds)
  | .implicit => (Abi.c, ds)
  | .explicitAbi a => lowerAbi lookup allNames a ds

/-- Lowering a whole sequence of explicit ABI strings, accumulating
diagnostics: each element is lowered in turn and lowering never aborts. -/
def lowerAbis (lookup : String → Option Abi) (allNames : String)
    (as : List StrLit) (ds : List Diag) : List Abi × List Diag :=
  match as with
  | [] => ([], ds)
  | a :: rest =>
    let r := lowerAbi lookup allNames a ds
    let rr := lowerAbis lookup allNames rest r.2
    (r.1 :: rr.1, rr.2)

end AbiLower

/-! ## Foreign (extern-block) items (`ItemLowerer::visit_fn`, `lower_foreign_item`) -/

namespace Foreign

/-- A function parameter of a foreign signature: its name and node id. -/
structure FnParam where
  name : String
  pid : Nat
deriving Repr, DecidableEq

/-- A function declaration: the inputs (`decl.inputs`). -/
structure FnDecl where
  inputs : List FnParam
deriving Repr, DecidableEq

/-- A function signature: header tag plus declaration (`ast::FnSig`). -/
structure FnSig where
  header : Nat
  decl : FnDecl
deriving Repr, DecidableEq

/-- The kind of a surface foreign item (`ast::ForeignItemKind`).  Both the
`Fn` body and the `Static` initializer expression are present in the surface
tree; `lower_foreign_item` binds them with `_` and never lowers them. -/
inductive ForeignItemKind where
  | fn (sig : FnSig) (generics : Nat) (body : Option Nat)
  | staticItem (ty : Nat) (isMut : Bool) (expr : Option Nat)
  | tyAlias
  | macCall (payload : Nat)
deriving Repr, DecidableEq

/-- A surface foreign item. -/
structure ForeignItem where
  fid : Nat
  idnt : String
  kind : ForeignItemKind
  vis : Nat
  span : Nat
deriving Repr, DecidableEq

/-- The lowered kind (`hir::ForeignItemKind`): only signatures survive. -/
inductive HForeignItemKind where
  | fn (decl : FnDecl) (paramNames : List String) (generics : Nat)
  | staticItem (ty : Nat) (isMut : Bool)
  | typeItem
deriving Repr, DecidableEq

/-- The lowered foreign item (`hir::ForeignItem`). -/
structure HForeignItem where
  defId : Nat
  idnt : String
  kind : HForeignItemKind
  vis : Nat
  span : Nat
deriving Repr, DecidableEq

/-- `lower_foreign_item`: lowers the signature only.  The `Fn` body slot is
matched with `_` and ignored; a stray `MacCall` is an internal fault. -/
def lowerForeignItem (i : ForeignItem) : Except String HForeignItem :=
  match i.kind with
  | .fn sig g _ =>
    .ok ⟨i.fid, i.idnt, .fn sig.decl (sig.decl.inputs.map (fun p => p.name)) g, i.vis, i.span⟩
  | .staticItem ty m _ =>
    .ok ⟨i.fid, i.idnt, .staticItem ty m, i.vis, i.span⟩
  | .tyAlias => .ok ⟨i.fid, i.idnt, .typeItem, i.vis, i.span⟩
  | .macCall _ => .error "macro should not exist here"

/-- The context of a function encountered by the visitor (`visit::FnCtxt`). -/
inductive FnCtx where
  | free
  | foreign
  | assoc
deriving Repr, DecidableEq

/-- A visited syntactic part, for modelling which children
`ItemLowerer::visit_fn` walks. -/
inductive Part where
  | header (h : Nat)
  | param (pid : Nat)
  | body (b : Nat)
deriving Repr, DecidableEq

/-- `ItemLowerer::visit_fn`: for a foreign function it visits the header and
the declaration only, deliberately skipping the body even when one is
present; every other function context also walks the body. -/
def visitFnParts (ctx : FnCtx) (sig : FnSig) (body : Option Nat) : List Part :=
  match ctx with
  | .foreign => Part.header sig.header :: sig.decl.inputs.map (fun p => Part.param p.pid)
  | _ =>
    Part.header sig.header :: sig.decl.inputs.map (fun p => Part.param p.pid)
      ++ (match body with
          | some b => [Part.body b]
          | none => [])

end Foreign

/-! ## Structural invariant faults in `lower_item` / `lower_item_kind` -/

namespace Items

/-- A module's kind: populated with child item ids, or not yet loaded
(`ast::ModKind`). -/
inductive ModKind where
  | loaded (items : List Nat) (innerSpan : Nat)
  | unloaded
deriving Repr, DecidableEq

/-- The surface item kinds relevant to the structural-fault claims
(`ast::ItemKind`): macro definitions, macro invocations, modules, and a
representative ordinary kind. -/
inductive ItemKind where
  | macDef (body : Nat) (macRules : Bool)
  | macCall (payload : Nat)
  | modItem (m : ModKind)
  | externCrate (orig : Option String)
deriving Repr, DecidableEq

/-- A surface item.  `hasMacExport` models
`sess.contains_name(&i.attrs, sym::macro_export)`. -/
structure Item where
  iid : Nat
  idnt : String
  hasMacExport : Bool
  kind : ItemKind
  vis : Nat
  span : Nat
deriving Repr, DecidableEq

/-- The lowered item kind, for the kinds modelled here. -/
inductive HItemKind where
  | modLowered (items : List Nat) (innerSpan : Nat)
  | externCrate (orig : Option String)
deriving Repr, DecidableEq

/-- The side tables written while lowering these item kinds: the
exported-macro list and the non-exported-macro-attribute list. -/
structure St where
  exported : List (Nat × String)
  nonExportedAttrs : List Nat
deriving Repr, DecidableEq

/-- `lower_item_kind` restricted to the modelled kinds: an unloaded module,
a macro definition or a macro invocation reaching it is an internal fault
(`panic!`), never a user diagnostic. -/
def lowerItemKind (k : ItemKind) : Except String HItemKind :=
  match k with
  | .modItem (.loaded items innerSpan) => .ok (.modLowered items innerSpan)
  | .modItem .unloaded => .error "mod items should have been loaded by now"
  | .macDef _ _ => .error "TyMac should have been expanded by now"
  | .macCall _ => .error "TyMac should have been expanded by now"
  | .externCrate orig => .ok (.externCrate orig)

/-- `lower_item`: a macro definition is intercepted before `lower_item_kind`
is ever reached — it is recorded in the exported-macro list (when it is not
`macro_rules!`-style, or carries the export attribute) or has its attributes
recorded, and yields no lowered item.  Other kinds go to `lower_item_kind`. -/
def lowerItem (i : Item) (s : St) : Except String (St × Option HItemKind) :=
  match i.kind with
  | .macDef _ macRules =>
    if !macRules || i.hasMacExport then
      .ok ({ s with exported := s.exported ++ [(i.iid, i.idnt)] }, none)
    else
      .ok ({ s with nonExportedAttrs := s.nonExportedAttrs ++ [i.iid] }, none)
  | k =>
    match lowerItemKind k with
    | .error e => .error e
    | .ok hk => .ok (s, some hk)

end Items

/-! ## Generics lowering and `?Trait` bound relocation
(`lower_generics_mut`, `lower_where_clause`, `lower_where_predicate`) -/

namespace GenericsLower

/-- Trait bound modifiers (`ast::TraitBoundModifier`): `maybe` is `?Trait`. -/
inductive BoundMod where
  | plain
  | maybe
  | maybeConst
deriving Repr, DecidableEq

/-- A generic bound (`ast::GenericBound`): a trait bound with a modifier
(trait reference abstracted as a payload), or an outlives bound. -/
inductive GenericBound where
  | traitBound (payload : Nat) (m : BoundMod)
  | outlives (lt : Nat)
deriving Repr, DecidableEq

/-- `true` exactly on `?Trait` bounds. -/
def isMaybeBound (b : GenericBound) : Bool :=
  match b with
  | .traitBound _ .maybe => true
  | _ => false

/-- Generic parameter kinds. -/
inductive ParamKind where
  | lifetimeParam
  | typeParam
  | constParam
deriving Repr, DecidableEq

/-- A generic parameter: node id, kind, and its declared bound list. -/
structure GenericParam where
  pid : Nat
  kind : ParamKind
  bounds : List GenericBound
deriving Repr, DecidableEq

/-- The kind of a bounded type, as far as the relocation check inspects it:
a (possibly qualified) path with a segment count, or anything else. -/
inductive TyKind where
  | path (hasQSelf : Bool) (nsegs : Nat)
  | otherTy
deriving Repr, DecidableEq

/-- A surface type with node id, span and kind. -/
structure Ty where
  tid : Nat
  span : Nat
  kind : TyKind
deriving Repr, DecidableEq

/-- A where-clause bound predicate (`ast::WhereBoundPredicate`). -/
structure BoundPred where
  boundGenericParams : List GenericParam
  boundedTy : Ty
  bounds : List GenericBound
  span : Nat
deriving Repr, DecidableEq

/-- A where-clause predicate (`ast::WherePredicate`). -/
inductive WherePred where
  | boundPred (bp : BoundPred)
  | regionPred (lt : Nat) (bounds : List GenericBound) (span : Nat)
  | eqPred (pid lhs rhs span : Nat)
deriving Repr, DecidableEq

/-- A where clause. -/
structure WhereClause where
  preds : List WherePred
  span : Nat
deriving Repr, DecidableEq

/-- A surface generics record. -/
structure Generics where
  params : List GenericParam
  whereClause : WhereClause
  span : Nat
deriving Repr, DecidableEq

/-- Definition kinds, as far as the relocation check needs (`DefKind`). -/
inductive DefKind where
  | tyParam
  | otherDef
deriving Repr, DecidableEq

/-- A definition id: whether it is crate-local, and its index
(`DefId` / `DefId::as_local`). -/
structure DefId where
  isLocal : Bool
  index : Nat
deriving Repr, DecidableEq

/-- A resolution (`Res`). -/
inductive Res where
  | defRes (k : DefKind) (d : DefId)
  | errRes
deriving Repr, DecidableEq

/-- The resolution service consulted by the relocation check:
`get_partial_res(..).map(|d| d.base_res())` and `local_def_id`. -/
structure Resolver where
  baseResOf : Nat → Option Res
  localDefId : Nat → Nat

/-- A diagnostic: primary span and message. -/
structure Diag where
  span : Nat
  msg : String
deriving Repr, DecidableEq

/-- The fixed message reported for a misplaced `?Trait` bound. -/
def maybeBoundMsg : String :=
  "`?Trait` bounds are only permitted at the point where a type parameter is declared"

/-- The relocation check of `lower_generics_mut` for one bound predicate:
the bounded type must be a bare (unqualified) single-segment path with no
binder generics, resolve to a crate-local type parameter, and that parameter
must be declared (as a type parameter) in the same parameter list; returns
the node id of the matched parameter. -/
def relocParam (r : Resolver) (g : Generics) (bp : BoundPred) : Option Nat :=
  match bp.boundedTy.kind with
  | .path false 1 =>
    if bp.boundGenericParams.isEmpty then
      match r.baseResOf bp.boundedTy.tid with
      | some (.defRes .tyParam d) =>
        if d.isLocal then
          (g.params.find? (fun p =>
            decide (p.kind = .typeParam) && decide (r.localDefId p.pid = d.index))).map
            (fun p => p.pid)
        else none
      | _ => none
    else none
  | _ => none

/-- The inner loop of the relocation pass over one predicate's bound list:
each `?Trait` bound is either queued for relocation onto its parameter, or
reported with one diagnostic at the bounded type's span; other bounds are
left alone. -/
def collectBounds (r : Resolver) (g : Generics) (bp : BoundPred) :
    List GenericBound → List (Nat × GenericBound) × List Diag
  | [] => ([], [])
  | b :: rest =>
    let tail := collectBounds r g bp rest
    if isMaybeBound b then
      match relocParam r g bp with
      | some pid => ((pid, b) :: tail.1, tail.2)
      | none => (tail.1, ⟨bp.boundedTy.span, maybeBoundMsg⟩ :: tail.2)
    else tail

/-- The outer loop of the relocation pass over the where-clause predicates. -/
def collectPreds (r : Resolver) (g : Generics) :
    List WherePred → List (Nat × GenericBound) × List Diag
  | [] => ([], [])
  | p :: rest =>
    let tail := collectPreds r g rest
    match p with
    | .boundPred bp =>
      let here := collectBounds r g bp bp.bounds
      (here.1 ++ tail.1, here.2 ++ tail.2)
    | _ => tail

/-- `lower_where_predicate`: a bound predicate's `?Trait` bounds are filtered
out of the lowered bound list (they were already copied onto type
parameters); other predicates are passed through. -/
def lowerWherePred (p : WherePred) : WherePred :=
  match p with
  | .boundPred bp =>
    .boundPred { bp with bounds := bp.bounds.filter (fun b => !isMaybeBound b) }
  | x => x

/-- `lower_where_clause`: lower every predicate. -/
def lowerWhereClause (wc : WhereClause) : WhereClause :=
  { wc with preds := wc.preds.map lowerWherePred }

/-- `lower_generic_params_mut` as far as bound bookkeeping goes: each
parameter's bound list is extended with the bounds queued for its node id,
in queue order. -/
def lowerGenericParams (ps : List GenericParam) (ab : List (Nat × GenericBound)) :
    List GenericParam :=
  ps.map (fun p =>
    { p with bounds := p.bounds ++ (ab.filter (fun e => e.1 == p.pid)).map (fun e => e.2) })

/-- The deferred generics construction record (`GenericsCtor`). -/
structure GenericsCtor where
  params : List GenericParam
  whereClause : WhereClause
  span : Nat
deriving Repr, DecidableEq

/-- `lower_generics_mut`: run the relocation pass, then build the parameter
list (with relocated bounds appended) and the filtered where-clause.  The
second component is the list of diagnostics handed to the sink. -/
def lowerGenericsMut (r : Resolver) (g : Generics) : GenericsCtor × List Diag :=
  let col := collectPreds r g g.whereClause.preds
  (⟨lowerGenericParams g.params col.1, lowerWhereClause g.whereClause, g.span⟩, col.2)

/-- All `?Trait` occurrences of a where-clause, with their predicate, in
syntactic order. -/
def maybeOccs : List WherePred → List (BoundPred × GenericBound)
  | [] => []
  | .boundPred bp :: rest =>
    (bp.bounds.filter isMaybeBound).map (fun b => (bp, b)) ++ maybeOccs rest
  | _ :: rest => maybeOccs rest

/-- `true` when a lowered predicate carries no `?Trait` bound. -/
def predNoMaybe (p : WherePred) : Bool :=
  match p with
  | .boundPred bp => bp.bounds.all (fun b => !isMaybeBound b)
  | _ => true

end GenericsLower

/-! ## Async function body desugaring (`lower_maybe_async_body`) -/

namespace AsyncBody

/-- hir binding annotations (`hir::BindingAnnotation`). -/
inductive BindAnn where
  | unannotated
  | mutated
  | refAnn
  | refMut
deriving Repr, DecidableEq

/-- The surface shape of a parameter pattern, as far as the async rewrite
inspects its lowering: a name binding with an annotation, a wildcard, or
any other (complex) pattern. -/
inductive SPat where
  | binding (ann : BindAnn) (name : String)
  | wild
  | complexPat
deriving Repr, DecidableEq

/-- A lowered pattern: like `SPat` but carrying the hir-id assigned when the
pattern was lowered. -/
inductive HPat where
  | binding (ann : BindAnn) (hid : Nat) (name : String)
  | wild (hid : Nat)
  | complexPat (hid : Nat)
deriving Repr, DecidableEq

/-- A lowered parameter (`hir::Param`): its own hir-id and its pattern. -/
structure HParam where
  hid : Nat
  pat : HPat
deriving Repr, DecidableEq

/-- The expressions the rewrite builds: a reference to a binding
(`expr_ident`, carrying the id of the referenced pattern), and the
`drop-temps { .. }` wrapper around the (abstracted) user body. -/
inductive HExpr where
  | identE (name : String) (target : Nat)
  | userBody (tag : Nat)
  | dropTemps (inner : HExpr)
deriving Repr, DecidableEq

/-- A `let <pat> = <init>;` statement (`stmt_let_pat`). -/
structure HStmt where
  pat : HPat
  init : HExpr
deriving Repr, DecidableEq

/-- The final block of the generator body: the capture statements followed
by the wrapped user body as the trailing expression. -/
structure HBlock where
  stmts : List HStmt
  tail : HExpr
deriving Repr, DecidableEq

/-- `lower_pat` restricted to these shapes: assigns the next hir-id. -/
def lowerPat (p : SPat) (c : Nat) : HPat × Nat :=
  match p with
  | .binding ann name => (.binding ann c name, c + 1)
  | .wild => (.wild c, c + 1)
  | .complexPat => (.complexPat c, c + 1)

/-- `lower_param`: the parameter's own hir-id, then its lowered pattern. -/
def lowerParamA (p : SPat) (c : Nat) : HParam × Nat :=
  let lp := lowerPat p (c + 1)
  (⟨c, lp.1⟩, lp.2)

/-- The ident / is-simple classification of the loop body: a plain
(optionally mutable) name binding is simple and keeps its identifier; a
`ref`-style binding keeps its name but is not simple; a wildcard uses `_`;
anything else is renamed to `__argN` from the parameter index. -/
def classify (pat : HPat) (index : Nat) : String × Bool :=
  match pat with
  | .binding .unannotated _ name => (name, true)
  | .binding .mutated _ name => (name, true)
  | .binding _ _ name => (name, false)
  | .wild _ => ("_", false)
  | .complexPat _ => ("__arg" ++ toString index, false)

/-- `pat_ident`: a fresh unannotated binding pattern; returns it with its
freshly assigned id. -/
def patIdent (name : String) (c : Nat) : (HPat × Nat) × Nat :=
  ((.binding .unannotated c name, c), c + 1)

/-- `pat_ident_binding_mode` with `Mutable`: a fresh mutable binding. -/
def patIdentMut (name : String) (c : Nat) : (HPat × Nat) × Nat :=
  ((.binding .mutated c name, c), c + 1)

/-- The per-parameter loop of `lower_maybe_async_body`: lowers each surface
parameter, builds the replacement `__argN`-style parameter, and emits one
capture statement for a simple binding or a move statement plus a
destructuring statement otherwise.  Returns the replacement parameter list,
the capture statements in emission order, and the final id counter. -/
def asyncParamsLoop : List SPat → Nat → Nat → List HParam × List HStmt × Nat
  | [], _, c => ([], [], c)
  | p :: rest, index, c =>
    let lp := lowerParamA p c
    let parameter := lp.1
    let c1 := lp.2
    let cls := classify parameter.pat index
    let name := cls.1
    let isSimple := cls.2
    let np := patIdent name c1
    let newParamPat := np.1.1
    let newParamId := np.1.2
    let c2 := np.2
    let newParameter : HParam := ⟨parameter.hid, newParamPat⟩
    if isSimple then
      let stmt : HStmt := ⟨parameter.pat, .identE name newParamId⟩
      let tail := asyncParamsLoop rest (index + 1) c2
      (newParameter :: tail.1, stmt :: tail.2.1, tail.2.2)
    else
      let mv := patIdentMut name c2
      let movePat := mv.1.1
      let moveId := mv.1.2
      let c3 := mv.2
      let moveStmt : HStmt := ⟨movePat, .identE name newParamId⟩
      let patternStmt : HStmt := ⟨parameter.pat, .identE name moveId⟩
      let tail := asyncParamsLoop rest (index + 1) c3
      (newParameter :: tail.1, moveStmt :: patternStmt :: tail.2.1, tail.2.2)

/-- `lower_maybe_async_body` for an `async` function with a concrete body:
run the parameter loop and build the generator block whose statements are
the capture statements and whose trailing expression is the user body
wrapped in `drop-temps`. -/
def lowerMaybeAsyncBody (ps : List SPat) (userTag : Nat) (c0 : Nat) :
    List HParam × HBlock × Nat :=
  let loop := asyncParamsLoop ps 0 c0
  (loop.1, ⟨loop.2.1, .dropTemps (.userBody userTag)⟩, loop.2.2)

/-- The identifier the rewrite uses for a surface pattern: a binding keeps
its own name, a wildcard uses `_`, a complex pattern is renamed `__argN`. -/
def nameOf (p : SPat) (index : Nat) : String :=
  match p with
  | .binding _ name => name
  | .wild => "_"
  | .complexPat => "__arg" ++ toString index

/-- The claim-side per-parameter statement shape, by recursion over the
surface parameters: a simple binding contributes exactly one statement
whose pattern is the original lowered binding pattern; any other pattern
contributes exactly two statements, a fresh mutable temporary capturing the
placeholder followed by a binding of the original pattern to that
temporary, with the temporary's id fresh (distinct from the original
pattern's id and the placeholder's id). -/
def ChunkSpec (c0 : Nat) : List SPat → Nat → List HStmt → Prop
  | [], _, stmts => stmts = []
  | p :: rest, index, stmts =>
    match p with
    | .binding .unannotated name => ∃ pid npid tailStmts,
        stmts = ⟨.binding .unannotated pid name, .identE name npid⟩ :: tailStmts
        ∧ c0 ≤ pid ∧ pid < npid ∧ ChunkSpec npid rest (index + 1) tailStmts
    | .binding .mutated name => ∃ pid npid tailStmts,
        stmts = ⟨.binding .mutated pid name, .identE name npid⟩ :: tailStmts
        ∧ c0 ≤ pid ∧ pid < npid ∧ ChunkSpec npid rest (index + 1) tailStmts
    | other => ∃ origPat mid npid tailStmts,
        stmts = ⟨.binding .mutated mid (nameOf other index), .identE (nameOf other index) npid⟩
            :: ⟨origPat, .identE (nameOf other index) mid⟩ :: tailStmts
        ∧ (∃ pid, c0 ≤ pid ∧ origPat = (lowerPat other pid).1 ∧ pid < npid ∧ npid < mid)
        ∧ ChunkSpec mid rest (index + 1) tailStmts

end AsyncBody

/-! ## Use-tree flattening (`lower_use_tree`, `lower_item_id_use_tree`) -/

namespace UseTrees

/-- A path segment: identifier text and node id. -/
structure Segment where
  name : String
  sid : Nat
deriving Repr, DecidableEq

/-- A surface path: segments and span. -/
structure Path0 where
  segs : List Segment
  span : Nat
deriving Repr, DecidableEq

/-- A resolution from the per-namespace service (`Res`): a resolved target
or the explicit unresolved marker `Res::Err`. -/
inductive Res where
  | resolved (defIdx : Nat)
  | err
deriving Repr, DecidableEq

/-- Lowered visibility (`hir::VisibilityKind`). -/
inductive Vis where
  | publicVis
  | crateVis
  | inheritedVis
  | restrictedVis (path : List String)
deriving Repr, DecidableEq

/-- The three lowered import kinds (`hir::UseKind`). -/
inductive UseKind where
  | single
  | globK
  | listStem
deriving Repr, DecidableEq

/-- A lowered use path: segments, resolution, span (`lower_path_extra`). -/
structure HPath where
  segs : List Segment
  res : Res
  span : Nat
deriving Repr, DecidableEq

/-- The lowered item kind produced for a use tree. -/
inductive HItemKind where
  | useItem (p : HPath) (uk : UseKind)
deriving Repr, DecidableEq

/-- A lowered item as inserted into the item table by `insert_item`. -/
structure HItem where
  defId : Nat
  idnt : String
  kind : HItemKind
  vis : Vis
  span : Nat
deriving Repr, DecidableEq

/-- The state threaded through use-tree lowering: the item table, the
resolver's fresh node-id counter (`resolver.next_node_id`), and a count of
consultations of the per-namespace fan-out service
(`expect_full_res_from_use`). -/
structure St where
  items : List HItem
  nextId : Nat
  fanouts : Nat
deriving Repr, DecidableEq

/-- The resolution service: `fromUse` is `expect_full_res_from_use` (zero,
one or two namespace hits per use node), `singleRes` is the ordinary
single-resolution lookup used by `lower_path`. -/
structure Resolver where
  fromUse : Nat → List Res
  singleRes : Nat → Res

mutual

/-- A surface use tree (`ast::UseTree`): accumulated path prefix, span and
kind; a nested group carries child trees with their node ids. -/
inductive UseTree where
  | mk (pfx : Path0) (span : Nat) (kind : UseTreeKind)

/-- The three use-tree kinds (`ast::UseTreeKind`).  A `simple` leaf carries
the optional rename and the two pre-reserved extra node ids. -/
inductive UseTreeKind where
  | simple (rename : Option String) (extra1 extra2 : Nat)
  | globT
  | nested (trees : List (UseTree × Nat))

end

/-- The path prefix of a use tree. -/
def UseTree.pfx : UseTree → Path0
  | .mk p _ _ => p

/-- The span of a use tree. -/
def UseTree.span : UseTree → Nat
  | .mk _ sp _ => sp

/-- The kind of a use tree. -/
def UseTree.kind : UseTree → UseTreeKind
  | .mk _ _ k => k

/-- Re-number a cloned segment list: every segment gets a brand-new node id
(`seg.id = self.resolver.next_node_id()`). -/
def freshSegs (segs : List Segment) (n : Nat) : List Segment × Nat :=
  match segs with
  | [] => ([], n)
  | sg :: rest =>
    let r := freshSegs rest (n + 1)
    ({ sg with sid := n } :: r.1, r.2)

/-- Consult `expect_full_res_from_use` for a node, counting the
consultation. -/
def consultFromUse (rv : Resolver) (nid : Nat) (s : St) : List Res × St :=
  (rv.fromUse nid, { s with fanouts := s.fanouts + 1 })

/-- `insert_item`: append a lowered item to the item table. -/
def insertItem (it : HItem) (s : St) : St :=
  { s with items := s.items ++ [it] }

/-- `rebuild_vis`: clones a visibility for reuse on a synthesized item (the
fresh hir-ids it assigns inside restricted paths are abstracted away). -/
def rebuildVis (v : Vis) : Vis :=
  match v with
  | .restrictedVis p => .restrictedVis p
  | x => x

/-- `tree.ident()` for a simple leaf: the rename if given, else the last
segment of the tree's own prefix. -/
def simpleIdent (rename : Option String) (tp : Path0) : String :=
  rename.getD ((tp.segs.getLast?).map (fun sg => sg.name) |>.getD "")

/-- The `self`-import correction of the `Simple` arm: a trailing `self`
segment on a multi-segment path is popped, and without a rename the ident
becomes the new last segment. -/
def selfFix (rename : Option String) (path0 : Path0) (ident0 : String) :
    Path0 × String :=
  if decide (1 < path0.segs.length)
      && (((path0.segs.getLast?).map (fun sg => sg.name)) == some "self") then
    let segs' := path0.segs.dropLast
    let id' :=
      if rename.isNone then ((segs'.getLast?).map (fun sg => sg.name)).getD ident0
      else ident0
    (⟨segs', path0.span⟩, id')
  else (path0, ident0)

/-- Lower the extra per-namespace items of a `Simple` leaf: for each hit
beyond the first (zipped against the two reserved node ids), clone the path
with brand-new segment ids and insert one `Single` import item. -/
def insertExtras (vis : Vis) (ident1 : String) (path1 : Path0) :
    List (Res × Nat) → St → St
  | [], s => s
  | (r, newId) :: rest, s =>
    let fs := freshSegs path1.segs s.nextId
    let s1 : St := { s with nextId := fs.2 }
    let s2 := insertItem
      ⟨newId, ident1, .useItem ⟨fs.1, r, path1.span⟩ .single, rebuildVis vis, path1.span⟩ s1
    insertExtras vis ident1 path1 rest s2

mutual

/-- `lower_use_tree`: lowers one use tree under an accumulated prefix,
returning the item kind for the tree itself together with the (possibly
updated) visibility and ident the caller must attach to it, and the updated
state (items inserted for extra namespace hits and for nested children). -/
def lowerUseTree (rv : Resolver) (t : UseTree) (pfx : Path0) (nid : Nat)
    (vis : Vis) (idnt : String) (s : St) : HItemKind × Vis × String × St :=
  match t with
  | .mk tp _tspan k =>
    let segments := pfx.segs ++ tp.segs
    match k with
    | .simple rename extra1 extra2 =>
      let ident0 := simpleIdent rename tp
      let pf := selfFix rename ⟨segments, tp.span⟩ ident0
      let path1 := pf.1
      let ident1 := pf.2
      let rsS := consultFromUse rv nid s
      let rs := rsS.1
      let retRes := rs.headD Res.err
      let extras := (rs.drop 1).zip [extra1, extra2]
      let s2 := insertExtras vis ident1 path1 extras rsS.2
      (.useItem ⟨path1.segs, retRes, path1.span⟩ .single, vis, ident1, s2)
    | .globT =>
      (.useItem ⟨segments, rv.singleRes nid, tp.span⟩ .globK, vis, idnt, s)
    | .nested trees =>
      let pfx2 : Path0 := ⟨segments, pfx.span⟩
      let s1 := lowerUseTrees rv trees pfx2 vis idnt s
      let vis2 := match vis with
        | .restrictedVis p => .restrictedVis p
        | _ => Vis.inheritedVis
      let rsS := consultFromUse rv nid s1
      let res := rsS.1.headD Res.err
      (.useItem ⟨pfx2.segs, res, pfx2.span⟩ .listStem, vis2, idnt, rsS.2)

/-- The loop over a nested group's children: each child gets a clone of the
group prefix with brand-new segment ids and a rebuilt visibility, is
lowered recursively, and its resulting item is inserted. -/
def lowerUseTrees (rv : Resolver) (ts : List (UseTree × Nat)) (pfx2 : Path0)
    (vis : Vis) (idnt : String) (s : St) : St :=
  match ts with
  | [] => s
  | (t, cid) :: rest =>
    let fs := freshSegs pfx2.segs s.nextId
    let s1 : St := { s with nextId := fs.2 }
    let r := lowerUseTree rv t ⟨fs.1, pfx2.span⟩ cid (rebuildVis vis) idnt s1
    let s2 := insertItem ⟨cid, r.2.2.1, r.1, r.2.1, t.span⟩ r.2.2.2
    lowerUseTrees rv rest pfx2 vis idnt s2

end

/-- Lowering a whole `use` item (`lower_item_kind`, `ItemKind::Use` arm):
start from the empty prefix; the returned item kind itself accounts for one
further import record inserted by the caller, so the total number of import
records is one more than the items inserted during `lower_use_tree`. -/
def lowerUseItem (rv : Resolver) (t : UseTree) (nid : Nat) (vis : Vis)
    (idnt : String) (s : St) : HItemKind × Vis × String × St :=
  lowerUseTree rv t ⟨[], t.span⟩ nid vis idnt s

/-- The number of import records produced for one `use` item: the items
inserted while flattening plus the one item returned for the tree itself. -/
def recordsProduced (rv : Resolver) (t : UseTree) (nid : Nat) (vis : Vis)
    (idnt : String) (s : St) : Nat :=
  ((lowerUseItem rv t nid vis idnt s).2.2.2.items.length - s.items.length) + 1

/-- `true` when a use tree is a simple (leaf) tree. -/
def isSimpleTree (t : UseTree) : Bool :=
  match t.kind with
  | .simple _ _ _ => true
  | _ => false

/-- The `UseKind` of a lowered use item kind. -/
def useKindOf (k : HItemKind) : UseKind :=
  match k with
  | .useItem _ uk => uk

/-- The resolution attached to a lowered use item kind. -/
def resOf (k : HItemKind) : Res :=
  match k with
  | .useItem p _ => p.res

/-- The segment node ids appearing in a lowered item. -/
def segIdsOf (it : HItem) : List Nat :=
  match it.kind with
  | .useItem p _ => p.segs.map (fun sg => sg.sid)

end UseTrees

/-! ## Theorems -/

namespace BodyFrame

/-- C10: `lower_body` is a frame for the generator state: after the call the
`generator_kind` and `task_context` fields equal their values immediately
before the call, whatever the body-producing closure `f` did to them; both
fields are cleared for the duration of `f` (so `lower_body` only depends on
`f`'s behaviour on cleared states); and the produced body is recorded in
the body table. -/
theorem lowerBody_frame (f : St → (List Nat × Nat) × St) (s : St) :
    (lowerBody f s).2.genKind = s.genKind
    ∧ (lowerBody f s).2.taskCtx = s.taskCtx
    ∧ lowerBody f s = lowerBody (fun st => f { st with genKind := none, taskCtx := none }) s
    ∧ (lowerBody f s).2.bodies.length
        = (f { s with genKind := none, taskCtx := none }).2.bodies.length + 1 := by
  refine ⟨rfl, rfl, rfl, ?_⟩
  simp [lowerBody, recordBody]

end BodyFrame

namespace LtScopes

/-- Every successful run leaves the initial stack as a prefix of the final
stack: raw pushes only append, `withoutDefs` restores the saved stack
exactly, and `withParent` truncates back to the saved length. -/
theorem runLt_isPrefix (p : Prog) :
    ∀ s s' : St, runLt p s = .ok s' → s.inScope <+: s'.inScope := by
  induction p with
  | skip =>
    intro s s' h
    simp only [runLt] at h
    cases h
    exact List.prefix_rfl
  | push n =>
    intro s s' h
    simp only [runLt] at h
    cases h
    exact List.prefix_append _ _
  | seq p q ihp ihq =>
    intro s s' h
    simp only [runLt] at h
    cases hp : runLt p s with
    | error e => rw [hp] at h; cases h
    | ok s1 =>
      rw [hp] at h
      exact (ihp s s1 hp).trans (ihq s1 s' h)
  | withoutDefs p ihp =>
    intro s s' h
    simp only [runLt] at h
    split at h
    · cases h
    · split at h
      · cases h
      · split at h
        · cases h
        · cases h
          exact List.prefix_rfl
  | withParent names p ihp =>
    intro s s' h
    simp only [runLt] at h
    split at h
    · cases h
    · rename_i s1 hq
      cases h
      have hpre : s.inScope ++ names <+: s1.inScope := ihp _ _ hq
      have hpre2 : s.inScope <+: s1.inScope :=
        (List.prefix_append s.inScope names).trans hpre
      have heq : s.inScope = s1.inScope.take s.inScope.length :=
        List.prefix_iff_eq_take.mp hpre2
      show s.inScope <+: s1.inScope.take s.inScope.length
      rw [← heq]

/-- `without_in_scope_lifetime_defs` restores the stack exactly on success. -/
theorem runLt_withoutDefs_restores (p : Prog) (s s' : St)
    (h : runLt (.withoutDefs p) s = .ok s') : s'.inScope = s.inScope := by
  simp only [runLt] at h
  split at h
  · cases h
  · split at h
    · cases h
    · split at h
      · cases h
      · cases h
        rfl

/-- `with_parent_item_lifetime_defs` restores the stack exactly on success. -/
theorem runLt_withParent_restores (names : List Nat) (p : Prog) (s s' : St)
    (h : runLt (.withParent names p) s = .ok s') : s'.inScope = s.inScope := by
  simp only [runLt] at h
  split at h
  · cases h
  · rename_i s1 hq
    cases h
    have hpre : s.inScope ++ names <+: s1.inScope := runLt_isPrefix p _ _ hq
    have hpre2 : s.inScope <+: s1.inScope :=
      (List.prefix_append s.inScope names).trans hpre
    show s1.inScope.take s.inScope.length = s.inScope
    exact (List.prefix_iff_eq_take.mp hpre2).symm

/-- C9: lowering a single item — modelled as its driver shape, the item's
own lowering wrapped in `without_in_scope_lifetime_defs` followed by child
visiting wrapped in `with_parent_item_lifetime_defs` — restores the
in-scope-lifetime stack to its previous length whenever it completes,
regardless of which lifetimes the internals (`inner`, `kids`) pushed, with
the nested-item stack cleared on entry and asserted empty on exit. -/
theorem visit_item_restores_lifetime_stack (inner kids : Prog) (names : List Nat)
    (s s' : St)
    (h : runLt (.seq (.withoutDefs inner) (.withParent names kids)) s = .ok s') :
    s'.inScope.length = s.inScope.length := by
  simp only [runLt] at h
  split at h
  · cases h
  · rename_i s1 h1
    have e1 : s1.inScope = s.inScope := runLt_withoutDefs_restores inner s s1 h1
    have e2 : s'.inScope = s1.inScope := runLt_withParent_restores names kids s1 s' h
    rw [e2, e1]

/-- Witness for C9 at a concrete item-lowering program: within the item two
lifetimes are inherited and one is pushed; nested lowering pushes more; the
stack length `1` is restored. -/
theorem visit_item_restores_lifetime_stack_witness :
    runLt (.seq (.withoutDefs (.withParent [1, 2] (.push 7)))
        (.withParent [3] (.push 4))) ⟨[9], []⟩ = .ok ⟨[9], []⟩
    ∧ (⟨[9], []⟩ : St).inScope.length = (⟨[9], []⟩ : St).inScope.length :=
  ⟨rfl,
    visit_item_restores_lifetime_stack (.withParent [1, 2] (.push 7))
      (.push 4) [3] ⟨[9], []⟩ ⟨[9], []⟩ rfl⟩

end LtScopes

namespace AbiLower

theorem lowerAbis_length (lookup : String → Option Abi) (allNames : String) :
    ∀ (as : List StrLit) (ds : List Diag),
      (lowerAbis lookup allNames as ds).1.length = as.length := by
  intro as
  induction as with
  | nil => intro ds; rfl
  | cons a rest ih => intro ds; simp [lowerAbis, ih]

/-- C7: lowering a malformed ABI string reports exactly one diagnostic
(appended to the sink), carrying the string's span and the valid-ABI
guidance text, substitutes the default calling convention `Abi::Rust`, and
lowering continues: a whole list of ABI strings always produces one lowered
ABI per element. -/
theorem invalid_abi_recovery (lookup : String → Option Abi) (allNames : String)
    (a : StrLit) (ds : List Diag) (h : lookup a.symbol = none) :
    lowerAbi lookup allNames a ds = (Abi.rust, ds ++ [invalidAbiDiag allNames a])
    ∧ (invalidAbiDiag allNames a).span = a.span
    ∧ (invalidAbiDiag allNames a).help = "valid ABIs: " ++ allNames
    ∧ ∀ (as : List StrLit) (ds0 : List Diag),
        (lowerAbis lookup allNames as ds0).1.length = as.length := by
  refine ⟨?_, rfl, rfl, lowerAbis_length lookup allNames⟩
  simp [lowerAbi, h]

/-- Witness for C7: a concrete unknown ABI string is replaced by the default
convention with one diagnostic at its span. -/
theorem invalid_abi_recovery_witness :
    (fun (_ : String) => (none : Option Abi)) "wasm-abi" = none
    ∧ lowerAbi (fun _ => none) "Rust, C" ⟨"wasm-abi", 42⟩ []
        = (Abi.rust, [invalidAbiDiag "Rust, C" ⟨"wasm-abi", 42⟩]) :=
  ⟨rfl, (invalid_abi_recovery (fun _ => none) "Rust, C" ⟨"wasm-abi", 42⟩ [] rfl).1⟩

end AbiLower

namespace Foreign

/-- C6 counterexample: a foreign function declaration that carries a body is
lowered successfully — `lower_foreign_item` matches the body slot with `_`
and returns the lowered signature — so encountering such a body is NOT
treated as a fatal internal fault (and produces no diagnostic either). -/
theorem foreign_body_not_fatal :
    lowerForeignItem ⟨0, "f", .fn ⟨10, ⟨[⟨"x", 1⟩]⟩⟩ 5 (some 7), 2, 3⟩
      = .ok ⟨0, "f", .fn ⟨[⟨"x", 1⟩]⟩ ["x"] 5, 2, 3⟩ := rfl

/-- C6 (amended): for a foreign function item only the signature (header and
declaration) is lowered; an attached body never influences the lowered
output and is silently skipped — both by `lower_foreign_item` and by
`ItemLowerer::visit_fn`, which never walks a foreign function's body — with
no fatal fault and no diagnostic. -/
theorem foreign_fn_signature_only (fid : Nat) (idnt : String) (sig : FnSig)
    (g : Nat) (body : Option Nat) (vis span : Nat) :
    lowerForeignItem ⟨fid, idnt, .fn sig g body, vis, span⟩
      = .ok ⟨fid, idnt, .fn sig.decl (sig.decl.inputs.map (fun p => p.name)) g, vis, span⟩
    ∧ lowerForeignItem ⟨fid, idnt, .fn sig g body, vis, span⟩
      = lowerForeignItem ⟨fid, idnt, .fn sig g none, vis, span⟩
    ∧ visitFnParts .foreign sig body = visitFnParts .foreign sig none
    ∧ ∀ b, Part.body b ∉ visitFnParts .foreign sig body := by
  refine ⟨rfl, rfl, rfl, ?_⟩
  intro b hb
  simp only [visitFnParts, List.mem_cons, List.mem_map] at hb
  rcases hb with h | ⟨p, _, h⟩ <;> cases h

end Foreign

namespace Items

/-- C8 counterexample: a macro-definition item that reaches `lower_item`
does not abort: it is intercepted before `lower_item_kind`, recorded in the
exported-macro list, and lowered to no item at all. -/
theorem macro_def_not_fatal :
    lowerItem ⟨5, "m", true, .macDef 0 true, 0, 1⟩ ⟨[], []⟩
      = .ok (⟨[(5, "m")], []⟩, none) := rfl

/-- C8 (amended): a macro invocation still present at lowering, and a module
item not yet populated, abort with an internal fault (never a user
diagnostic); a macro-definition item, by contrast, is handled gracefully —
it is diverted to the macro side tables and yields no lowered item. -/
theorem structural_faults_on_lower_item (i : Item) (s : St) :
    (∀ p, i.kind = .macCall p →
      lowerItem i s = .error "TyMac should have been expanded by now")
    ∧ (i.kind = .modItem .unloaded →
      lowerItem i s = .error "mod items should have been loaded by now")
    ∧ (∀ b mr, i.kind = .macDef b mr → ∃ s', lowerItem i s = .ok (s', none)) := by
  obtain ⟨iid, idnt, hx, kind, vis, span⟩ := i
  refine ⟨?_, ?_, ?_⟩
  · intro p hk
    simp only at hk
    subst hk
    rfl
  · intro hk
    simp only at hk
    subst hk
    rfl
  · intro b mr hk
    simp only at hk
    subst hk
    by_cases hc : (!mr || hx) = true
    · exact ⟨{ s with exported := s.exported ++ [(iid, idnt)] }, by simp [lowerItem, hc]⟩
    · exact ⟨{ s with nonExportedAttrs := s.nonExportedAttrs ++ [iid] },
        by simp [lowerItem, hc]⟩

/-- Witness for C8 (amended) at concrete items: a stray macro invocation and
an unloaded module fault, while a non-exported `macro_rules!` definition is
recorded without fault. -/
theorem structural_faults_on_lower_item_witness :
    lowerItem ⟨1, "x", false, .macCall 9, 0, 0⟩ ⟨[], []⟩
        = .error "TyMac should have been expanded by now"
    ∧ lowerItem ⟨2, "y", false, .modItem .unloaded, 0, 0⟩ ⟨[], []⟩
        = .error "mod items should have been loaded by now"
    ∧ ∃ s', lowerItem ⟨3, "z", false, .macDef 4 true, 0, 0⟩ ⟨[], []⟩ = .ok (s', none) :=
  ⟨(structural_faults_on_lower_item ⟨1, "x", false, .macCall 9, 0, 0⟩ ⟨[], []⟩).1 9 rfl,
    (structural_faults_on_lower_item ⟨2, "y", false, .modItem .unloaded, 0, 0⟩ ⟨[], []⟩).2.1 rfl,
    (structural_faults_on_lower_item ⟨3, "z", false, .macDef 4 true, 0, 0⟩ ⟨[], []⟩).2.2 4 true rfl⟩

end Items

namespace GenericsLower

theorem collectBounds_eq (r : Resolver) (g : Generics) (bp : BoundPred)
    (bs : List GenericBound) :
    collectBounds r g bp bs =
      (((bs.filter isMaybeBound).map (fun b => (bp, b))).filterMap
          (fun ob => (relocParam r g ob.1).map (fun pid => (pid, ob.2))),
        (((bs.filter isMaybeBound).map (fun b => (bp, b))).filter
          (fun ob => (relocParam r g ob.1).isNone)).map
          (fun ob => (⟨ob.1.boundedTy.span, maybeBoundMsg⟩ : Diag))) := by
  induction bs with
  | nil => rfl
  | cons b rest ih =>
    by_cases hm : isMaybeBound b
    · cases hr : relocParam r g bp with
      | none => simp [collectBounds, hm, hr, ih]
      | some pid => simp [collectBounds, hm, hr, ih]
    · simp [collectBounds, hm, ih]

theorem collectPreds_eq (r : Resolver) (g : Generics) (preds : List WherePred) :
    collectPreds r g preds =
      ((maybeOccs preds).filterMap
          (fun ob => (relocParam r g ob.1).map (fun pid => (pid, ob.2))),
        ((maybeOccs preds).filter (fun ob => (relocParam r g ob.1).isNone)).map
          (fun ob => (⟨ob.1.boundedTy.span, maybeBoundMsg⟩ : Diag))) := by
  induction preds with
  | nil => rfl
  | cons p rest ih =>
    cases p with
    | boundPred bp =>
      simp [collectPreds, maybeOccs, collectBounds_eq, ih,
        List.filterMap_append, List.filter_append]
    | regionPred lt bounds span => simpa [collectPreds, maybeOccs] using ih
    | eqPred pid lhs rhs span => simpa [collectPreds, maybeOccs] using ih

theorem filter_filterMap_reloc (r : Resolver) (g : Generics) (p : Nat)
    (l : List (BoundPred × GenericBound)) :
    (((l.filterMap (fun ob => (relocParam r g ob.1).map (fun pid => (pid, ob.2)))).filter
        (fun e => e.1 == p)).map (fun e => e.2))
      = (l.filter (fun ob => relocParam r g ob.1 == some p)).map (fun ob => ob.2) := by
  induction l with
  | nil => rfl
  | cons ob rest ih =>
    cases hr : relocParam r g ob.1 with
    | none => simp [hr, ih]
    | some q =>
      by_cases hq : q = p
      · subst hq; simp [hr, ih]
      · simp [hr, ih, hq]

/-- C1: lowering a generics/where-clause pair relocates exactly the `?Trait`
bounds whose bounded type is a bare single-segment path (with no binder
generics) resolving to a crate-local type parameter declared in the same
parameter list: those are appended to that parameter's own bound list and
produce no diagnostic; every other `?Trait` bound produces exactly one
diagnostic, at the bounded type's span, with the fixed message, and no
`?Trait` bound survives anywhere in the lowered where-clause. -/
theorem maybe_bound_relocation (r : Resolver) (g : Generics) :
    (lowerGenericsMut r g).2
      = ((maybeOccs g.whereClause.preds).filter
          (fun ob => (relocParam r g ob.1).isNone)).map
          (fun ob => (⟨ob.1.boundedTy.span, maybeBoundMsg⟩ : Diag))
    ∧ (lowerGenericsMut r g).1.params
      = g.params.map (fun p =>
          { p with bounds := p.bounds
              ++ ((maybeOccs g.whereClause.preds).filter
                    (fun ob => relocParam r g ob.1 == some p.pid)).map (fun ob => ob.2) })
    ∧ (lowerGenericsMut r g).1.whereClause.preds.all predNoMaybe = true := by
  refine ⟨?_, ?_, ?_⟩
  · simp [lowerGenericsMut, collectPreds_eq]
  · simp only [lowerGenericsMut, collectPreds_eq, lowerGenericParams]
    refine List.map_congr_left ?_
    intro p _
    rw [filter_filterMap_reloc]
  · simp only [lowerGenericsMut, lowerWhereClause, List.all_map]
    rw [List.all_eq_true]
    intro p _
    cases p with
    | boundPred bp =>
      simp only [Function.comp_apply, lowerWherePred, predNoMaybe]
      rw [List.all_eq_true]
      intro b hb
      exact (List.mem_filter.mp hb).2
    | regionPred lt bounds span => rfl
    | eqPred pid lhs rhs span => rfl

end GenericsLower

namespace AsyncBody

/-- The freshness floor of `ChunkSpec` is downward closed. -/
theorem ChunkSpec_mono : ∀ (ps : List SPat) (i : Nat) (st : List HStmt) (c c' : Nat),
    c ≤ c' → ChunkSpec c' ps i st → ChunkSpec c ps i st := by
  intro ps i st c c' hle h
  cases ps with
  | nil => exact h
  | cons p rest =>
    cases p with
    | binding ann name =>
      cases ann with
      | unannotated =>
        obtain ⟨pid, npid, tailStmts, he, hc, hlt, htail⟩ := h
        exact ⟨pid, npid, tailStmts, he, le_trans hle hc, hlt, htail⟩
      | mutated =>
        obtain ⟨pid, npid, tailStmts, he, hc, hlt, htail⟩ := h
        exact ⟨pid, npid, tailStmts, he, le_trans hle hc, hlt, htail⟩
      | refAnn =>
        obtain ⟨origPat, mid, npid, tailStmts, he, ⟨pid, hc, ho, h1, h2⟩, htail⟩ := h
        exact ⟨origPat, mid, npid, tailStmts, he, ⟨pid, le_trans hle hc, ho, h1, h2⟩, htail⟩
      | refMut =>
        obtain ⟨origPat, mid, npid, tailStmts, he, ⟨pid, hc, ho, h1, h2⟩, htail⟩ := h
        exact ⟨origPat, mid, npid, tailStmts, he, ⟨pid, le_trans hle hc, ho, h1, h2⟩, htail⟩
    | wild =>
      obtain ⟨origPat, mid, npid, tailStmts, he, ⟨pid, hc, ho, h1, h2⟩, htail⟩ := h
      exact ⟨origPat, mid, npid, tailStmts, he, ⟨pid, le_trans hle hc, ho, h1, h2⟩, htail⟩
    | complexPat =>
      obtain ⟨origPat, mid, npid, tailStmts, he, ⟨pid, hc, ho, h1, h2⟩, htail⟩ := h
      exact ⟨origPat, mid, npid, tailStmts, he, ⟨pid, le_trans hle hc, ho, h1, h2⟩, htail⟩

/-- The per-parameter loop produces one replacement parameter per surface
parameter and a statement list satisfying the per-parameter chunk shapes. -/
theorem asyncParamsLoop_spec : ∀ (ps : List SPat) (index c : Nat),
    (asyncParamsLoop ps index c).1.length = ps.length
    ∧ ChunkSpec c ps index (asyncParamsLoop ps index c).2.1 := by
  intro ps
  induction ps with
  | nil =>
    intro index c
    exact ⟨rfl, rfl⟩
  | cons p rest ih =>
    intro index c
    cases p with
    | binding ann name =>
      cases ann with
      | unannotated =>
        refine ⟨by simp [asyncParamsLoop, lowerParamA, lowerPat, classify, patIdent,
          (ih (index + 1) (c + 3)).1], ?_⟩
        simp only [asyncParamsLoop, lowerParamA, lowerPat, classify, patIdent]
        exact ⟨c + 1, c + 2, _, rfl, by omega, by omega,
          ChunkSpec_mono rest (index + 1) _ (c + 2) (c + 3) (by omega)
            (ih (index + 1) (c + 3)).2⟩
      | mutated =>
        refine ⟨by simp [asyncParamsLoop, lowerParamA, lowerPat, classify, patIdent,
          (ih (index + 1) (c + 3)).1], ?_⟩
        simp only [asyncParamsLoop, lowerParamA, lowerPat, classify, patIdent]
        exact ⟨c + 1, c + 2, _, rfl, by omega, by omega,
          ChunkSpec_mono rest (index + 1) _ (c + 2) (c + 3) (by omega)
            (ih (index + 1) (c + 3)).2⟩
      | refAnn =>
        refine ⟨by simp [asyncParamsLoop, lowerParamA, lowerPat, classify, patIdent,
          patIdentMut, (ih (index + 1) (c + 4)).1], ?_⟩
        simp only [asyncParamsLoop, lowerParamA, lowerPat, classify, patIdent, patIdentMut]
        exact ⟨.binding .refAnn (c + 1) name, c + 3, c + 2, _, rfl,
          ⟨c + 1, by omega, rfl, by omega, by omega⟩,
          ChunkSpec_mono rest (index + 1) _ (c + 3) (c + 4) (by omega)
            (ih (index + 1) (c + 4)).2⟩
      | refMut =>
        refine ⟨by simp [asyncParamsLoop, lowerParamA, lowerPat, classify, patIdent,
          patIdentMut, (ih (index + 1) (c + 4)).1], ?_⟩
        simp only [asyncParamsLoop, lowerParamA, lowerPat, classify, patIdent, patIdentMut]
        exact ⟨.binding .refMut (c + 1) name, c + 3, c + 2, _, rfl,
          ⟨c + 1, by omega, rfl, by omega, by omega⟩,
          ChunkSpec_mono rest (index + 1) _ (c + 3) (c + 4) (by omega)
            (ih (index + 1) (c + 4)).2⟩
    | wild =>
      refine ⟨by simp [asyncParamsLoop, lowerParamA, lowerPat, classify, patIdent,
        patIdentMut, (ih (index + 1) (c + 4)).1], ?_⟩
      simp only [asyncParamsLoop, lowerParamA, lowerPat, classify, patIdent, patIdentMut]
      exact ⟨.wild (c + 1), c + 3, c + 2, _, rfl,
        ⟨c + 1, by omega, rfl, by omega, by omega⟩,
        ChunkSpec_mono rest (index + 1) _ (c + 3) (c + 4) (by omega)
          (ih (index + 1) (c + 4)).2⟩
    | complexPat =>
      refine ⟨by simp [asyncParamsLoop, lowerParamA, lowerPat, classify, patIdent,
        patIdentMut, (ih (index + 1) (c + 4)).1], ?_⟩
      simp only [asyncParamsLoop, lowerParamA, lowerPat, classify, patIdent, patIdentMut]
      exact ⟨.complexPat (c + 1), c + 3, c + 2, _, rfl,
        ⟨c + 1, by omega, rfl, by omega, by omega⟩,
        ChunkSpec_mono rest (index + 1) _ (c + 3) (c + 4) (by omega)
          (ih (index + 1) (c + 4)).2⟩

/-- C5: desugaring an async function body emits, per parameter in
declaration order, exactly one capture statement reusing the original
binding pattern for a plain (optionally mutable) name binding, and exactly
two statements (a fresh mutable temporary capturing the placeholder,
followed by a binding of the original pattern to that temporary) for every
other pattern; the user body, wrapped in the drop-temporaries-first
expression, is placed after all capture statements as the block's trailing
expression, and one replacement parameter is produced per surface
parameter. -/
theorem async_body_parameter_capture (ps : List SPat) (u c0 : Nat) :
    (lowerMaybeAsyncBody ps u c0).2.1.tail = .dropTemps (.userBody u)
    ∧ (lowerMaybeAsyncBody ps u c0).1.length = ps.length
    ∧ ChunkSpec c0 ps 0 (lowerMaybeAsyncBody ps u c0).2.1.stmts :=
  ⟨rfl, (asyncParamsLoop_spec ps 0 c0).1, (asyncParamsLoop_spec ps 0 c0).2⟩

end AsyncBody

namespace UseTrees

/-- `freshSegs` assigns exactly the next consecutive block of node ids and
advances the counter past it. -/
theorem freshSegs_spec : ∀ (segs : List Segment) (n : Nat),
    ((freshSegs segs n).1.map (fun sg => sg.sid)) = List.range' n segs.length
    ∧ (freshSegs segs n).2 = n + segs.length := by
  intro segs
  induction segs with
  | nil => intro n; exact ⟨rfl, rfl⟩
  | cons sg rest ih =>
    intro n
    refine ⟨?_, ?_⟩
    · show n :: ((freshSegs rest (n + 1)).1.map (fun sg => sg.sid))
        = List.range' n (rest.length + 1)
      rw [(ih (n + 1)).1]
      rw [show List.range' n (rest.length + 1) = n :: List.range' (n + 1) rest.length from
        List.range'_succ n rest.length 1 ▸ rfl]
    · show (freshSegs rest (n + 1)).2 = n + (rest.length + 1)
      rw [(ih (n + 1)).2]
      omega

/-- `insertExtras` appends one `Single` import item per extra namespace hit,
whose freshly assigned segment ids form exactly the next consecutive block
of node ids; everything else in the state is untouched. -/
theorem insertExtras_spec (vis : Vis) (ident1 : String) (path1 : Path0) :
    ∀ (l : List (Res × Nat)) (s : St), ∃ suffix : List HItem,
      (insertExtras vis ident1 path1 l s).items = s.items ++ suffix
      ∧ suffix.length = l.length
      ∧ (insertExtras vis ident1 path1 l s).nextId
          = s.nextId + l.length * path1.segs.length
      ∧ (insertExtras vis ident1 path1 l s).fanouts = s.fanouts
      ∧ (∀ it ∈ suffix, useKindOf it.kind = .single)
      ∧ (suffix.map segIdsOf).flatten
          = List.range' s.nextId (l.length * path1.segs.length) := by
  intro l
  induction l with
  | nil =>
    intro s
    exact ⟨[], by simp [insertExtras], rfl, by simp [insertExtras], rfl, by simp, by simp⟩
  | cons pr rest ih =>
    intro s
    obtain ⟨r, newId⟩ := pr
    have hfs := freshSegs_spec path1.segs s.nextId
    set k := path1.segs.length with hk
    set item : HItem :=
      ⟨newId, ident1, .useItem ⟨(freshSegs path1.segs s.nextId).1, r, path1.span⟩ .single,
        rebuildVis vis, path1.span⟩ with hitem
    have hstep : insertExtras vis ident1 path1 ((r, newId) :: rest) s
        = insertExtras vis ident1 path1 rest
            { items := s.items ++ [item], nextId := s.nextId + k, fanouts := s.fanouts } := by
      simp only [insertExtras, insertItem, hitem, hfs.2]
    obtain ⟨suffix, hi, hlen, hnext, hfan, hsingle, hids⟩ :=
      ih { items := s.items ++ [item], nextId := s.nextId + k, fanouts := s.fanouts }
    refine ⟨item :: suffix, ?_, ?_, ?_, ?_, ?_, ?_⟩
    · rw [hstep, hi]; simp
    · simp [hlen]
    · rw [hstep, hnext]; simp; ring
    · rw [hstep, hfan]
    · intro it hit
      rcases List.mem_cons.mp hit with h | h
      · subst h; rfl
      · exact hsingle it h
    · show segIdsOf item ++ (suffix.map segIdsOf).flatten
        = List.range' s.nextId ((rest.length + 1) * k)
      rw [hids]
      have hseg : segIdsOf item = List.range' s.nextId k := by
        simp only [hitem, segIdsOf]
        exact hfs.1
      rw [hseg]
      simp only []
      have happ := List.range'_append s.nextId k (rest.length * k) 1
      rw [Nat.one_mul] at happ
      rw [happ]
      congr 1
      ring

/-- Lowering a `Simple` use-tree leaf: the returned item is always a
complete `Single` import whose target is the first namespace hit (or the
unresolved marker when there is none); one extra `Single` item is inserted
per namespace hit beyond the first, capped at the two reserved node ids,
each with freshly assigned segment ids. -/
theorem lowerUseTree_simple_spec (rv : Resolver) (tp : Path0) (sp : Nat)
    (rename : Option String) (e1 e2 nid : Nat) (pfx : Path0) (vis : Vis)
    (idnt : String) (s : St) :
    resOf (lowerUseTree rv (.mk tp sp (.simple rename e1 e2)) pfx nid vis idnt s).1
        = (rv.fromUse nid).headD Res.err
    ∧ useKindOf (lowerUseTree rv (.mk tp sp (.simple rename e1 e2)) pfx nid vis idnt s).1
        = .single
    ∧ ∃ suffix : List HItem,
      (lowerUseTree rv (.mk tp sp (.simple rename e1 e2)) pfx nid vis idnt s).2.2.2.items
          = s.items ++ suffix
      ∧ suffix.length = min ((rv.fromUse nid).length - 1) 2
      ∧ (∀ it ∈ suffix, useKindOf it.kind = .single)
      ∧ (∀ it ∈ suffix, ∀ i ∈ segIdsOf it, s.nextId ≤ i)
      ∧ (suffix.map segIdsOf).flatten.Nodup := by
  have hunfold : lowerUseTree rv (.mk tp sp (.simple rename e1 e2)) pfx nid vis idnt s
      = (let pf := selfFix rename ⟨pfx.segs ++ tp.segs, tp.span⟩ (simpleIdent rename tp)
         let rs := rv.fromUse nid
         (.useItem ⟨pf.1.segs, rs.headD Res.err, pf.1.span⟩ .single, vis, pf.2,
           insertExtras vis pf.2 pf.1 ((rs.drop 1).zip [e1, e2])
             { s with fanouts := s.fanouts + 1 })) := by
    simp [lowerUseTree, consultFromUse]
  rw [hunfold]
  simp only []
  refine ⟨rfl, rfl, ?_⟩
  obtain ⟨suffix, hi, hlen, _, _, hsingle, hids⟩ :=
    insertExtras_spec vis (selfFix rename ⟨pfx.segs ++ tp.segs, tp.span⟩
        (simpleIdent rename tp)).2
      (selfFix rename ⟨pfx.segs ++ tp.segs, tp.span⟩ (simpleIdent rename tp)).1
      (((rv.fromUse nid).drop 1).zip [e1, e2]) { s with fanouts := s.fanouts + 1 }
  refine ⟨suffix, hi, ?_, hsingle, ?_, ?_⟩
  · rw [hlen]
    rw [List.length_zip]
    simp
  · intro it hit i hmem
    have : i ∈ (suffix.map segIdsOf).flatten := by
      rw [List.mem_flatten]
      exact ⟨segIdsOf it, List.mem_map_of_mem segIdsOf hit, hmem⟩
    rw [hids] at this
    exact (List.mem_range'_1.mp this).1
  · rw [hids]
    exact List.nodup_range' _ _

/-- C4: for a simple use-tree leaf the resolution service is consulted for
the namespace hits of the path; the first hit (or the unresolved marker
when there are none) becomes the returned item's target, the returned item
is always a complete `Single` import (lowering never aborts), and — when
the service reports at most two namespace hits — each hit beyond the first
produces exactly one extra synthesized `Single` item whose path-segment
ids are freshly assigned (all at or above the current counter, mutually
distinct). -/
theorem simple_leaf_namespace_fanout (rv : Resolver) (tp : Path0) (sp : Nat)
    (rename : Option String) (e1 e2 nid : Nat) (pfx : Path0) (vis : Vis)
    (idnt : String) (s : St) (hlen : (rv.fromUse nid).length ≤ 2) :
    resOf (lowerUseTree rv (.mk tp sp (.simple rename e1 e2)) pfx nid vis idnt s).1
        = (rv.fromUse nid).headD Res.err
    ∧ useKindOf (lowerUseTree rv (.mk tp sp (.simple rename e1 e2)) pfx nid vis idnt s).1
        = .single
    ∧ (lowerUseTree rv (.mk tp sp (.simple rename e1 e2)) pfx nid vis idnt s).2.2.2.items.length
        = s.items.length + ((rv.fromUse nid).length - 1)
    ∧ (∀ it ∈ (lowerUseTree rv (.mk tp sp (.simple rename e1 e2)) pfx nid vis idnt
          s).2.2.2.items.drop s.items.length,
        useKindOf it.kind = .single ∧ ∀ i ∈ segIdsOf it, s.nextId ≤ i)
    ∧ ((((lowerUseTree rv (.mk tp sp (.simple rename e1 e2)) pfx nid vis idnt
          s).2.2.2.items.drop s.items.length).map segIdsOf).flatten).Nodup := by
  obtain ⟨hres, hkind, suffix, hi, hslen, hsingle, hfresh, hnodup⟩ :=
    lowerUseTree_simple_spec rv tp sp rename e1 e2 nid pfx vis idnt s
  have hdrop : (lowerUseTree rv (.mk tp sp (.simple rename e1 e2)) pfx nid vis idnt
      s).2.2.2.items.drop s.items.length = suffix := by
    rw [hi]; exact List.drop_left s.items suffix
  refine ⟨hres, hkind, ?_, ?_, ?_⟩
  · rw [hi]
    simp only [List.length_append, hslen]
    omega
  · rw [hdrop]
    exact fun it hit => ⟨hsingle it hit, hfresh it hit⟩
  · rw [hdrop]
    exact hnodup

/-- Witness for C4: a path that is both a type and a value (two namespace
hits) yields one extra synthesized item with fresh segment ids; the main
item targets the first hit. -/
theorem simple_leaf_namespace_fanout_witness :
    (((⟨fun _ => [.resolved 7, .resolved 8], fun _ => .err⟩ : Resolver).fromUse 5).length ≤ 2)
    ∧ (resOf (lowerUseTree ⟨fun _ => [.resolved 7, .resolved 8], fun _ => .err⟩
          (.mk ⟨[⟨"a", 1⟩], 100⟩ 101 (.simple none 11 12)) ⟨[⟨"m", 0⟩], 99⟩ 5
          .publicVis "" ⟨[], 1000, 0⟩).1
        = ((⟨fun _ => [.resolved 7, .resolved 8], fun _ => .err⟩ : Resolver).fromUse 5).headD
            Res.err
      ∧ useKindOf (lowerUseTree ⟨fun _ => [.resolved 7, .resolved 8], fun _ => .err⟩
          (.mk ⟨[⟨"a", 1⟩], 100⟩ 101 (.simple none 11 12)) ⟨[⟨"m", 0⟩], 99⟩ 5
          .publicVis "" ⟨[], 1000, 0⟩).1 = .single
      ∧ (lowerUseTree ⟨fun _ => [.resolved 7, .resolved 8], fun _ => .err⟩
          (.mk ⟨[⟨"a", 1⟩], 100⟩ 101 (.simple none 11 12)) ⟨[⟨"m", 0⟩], 99⟩ 5
          .publicVis "" ⟨[], 1000, 0⟩).2.2.2.items.length
        = ([] : List HItem).length
            + (((⟨fun _ => [.resolved 7, .resolved 8], fun _ => .err⟩ : Resolver).fromUse
                5).length - 1)
      ∧ (∀ it ∈ (lowerUseTree ⟨fun _ => [.resolved 7, .resolved 8], fun _ => .err⟩
            (.mk ⟨[⟨"a", 1⟩], 100⟩ 101 (.simple none 11 12)) ⟨[⟨"m", 0⟩], 99⟩ 5
            .publicVis "" ⟨[], 1000, 0⟩).2.2.2.items.drop ([] : List HItem).length,
          useKindOf it.kind = .single ∧ ∀ i ∈ segIdsOf it, (1000 : Nat) ≤ i)
      ∧ ((((lowerUseTree ⟨fun _ => [.resolved 7, .resolved 8], fun _ => .err⟩
            (.mk ⟨[⟨"a", 1⟩], 100⟩ 101 (.simple none 11 12)) ⟨[⟨"m", 0⟩], 99⟩ 5
            .publicVis "" ⟨[], 1000, 0⟩).2.2.2.items.drop
              ([] : List HItem).length).map segIdsOf).flatten).Nodup) :=
  ⟨by decide,
    simple_leaf_namespace_fanout ⟨fun _ => [.resolved 7, .resolved 8], fun _ => .err⟩
      ⟨[⟨"a", 1⟩], 100⟩ 101 none 11 12 5 ⟨[⟨"m", 0⟩], 99⟩ .publicVis "" ⟨[], 1000, 0⟩
      (by decide)⟩

/-- A nested group whose children are all simple leaves with at most one
namespace hit each inserts exactly one `Single` item per child. -/
theorem lowerUseTrees_simple_children (rv : Resolver) (pfx2 : Path0) (vis : Vis)
    (idnt : String) :
    ∀ (ts : List (UseTree × Nat)) (s : St),
      (∀ pr ∈ ts, isSimpleTree pr.1 = true ∧ (rv.fromUse pr.2).length ≤ 1) →
      ∃ suffix : List HItem,
        (lowerUseTrees rv ts pfx2 vis idnt s).items = s.items ++ suffix
        ∧ suffix.length = ts.length
        ∧ ∀ it ∈ suffix, useKindOf it.kind = .single := by
  intro ts
  induction ts with
  | nil =>
    intro s _
    exact ⟨[], by simp [lowerUseTrees], rfl, by simp⟩
  | cons pr rest ih =>
    intro s hh
    obtain ⟨t, cid⟩ := pr
    obtain ⟨hsimp, hres0⟩ := hh (t, cid) (List.mem_cons_self _ _)
    have hres : (rv.fromUse cid).length ≤ 1 := hres0
    have hrest := fun q hq => hh q (List.mem_cons_of_mem _ hq)
    obtain ⟨tp, tsp, k⟩ := t
    cases k with
    | simple rename i1 i2 =>
      obtain ⟨_, hkind, suffix0, hi0, hlen0, _, _, _⟩ :=
        lowerUseTree_simple_spec rv tp tsp rename i1 i2 cid
          ⟨(freshSegs pfx2.segs s.nextId).1, pfx2.span⟩ (rebuildVis vis) idnt
          { s with nextId := (freshSegs pfx2.segs s.nextId).2 }
      have hsuffix0 : suffix0 = [] := by
        rw [← List.length_eq_zero]
        rw [hlen0]
        omega
      subst hsuffix0
      rw [List.append_nil] at hi0
      have hstep : lowerUseTrees rv ((.mk tp tsp (.simple rename i1 i2), cid) :: rest)
          pfx2 vis idnt s
          = lowerUseTrees rv rest pfx2 vis idnt
              (insertItem
                ⟨cid,
                  (lowerUseTree rv (.mk tp tsp (.simple rename i1 i2))
                    ⟨(freshSegs pfx2.segs s.nextId).1, pfx2.span⟩ cid (rebuildVis vis) idnt
                    { s with nextId := (freshSegs pfx2.segs s.nextId).2 }).2.2.1,
                  (lowerUseTree rv (.mk tp tsp (.simple rename i1 i2))
                    ⟨(freshSegs pfx2.segs s.nextId).1, pfx2.span⟩ cid (rebuildVis vis) idnt
                    { s with nextId := (freshSegs pfx2.segs s.nextId).2 }).1,
                  (lowerUseTree rv (.mk tp tsp (.simple rename i1 i2))
                    ⟨(freshSegs pfx2.segs s.nextId).1, pfx2.span⟩ cid (rebuildVis vis) idnt
                    { s with nextId := (freshSegs pfx2.segs s.nextId).2 }).2.1,
                  UseTree.span (.mk tp tsp (.simple rename i1 i2))⟩
                (lowerUseTree rv (.mk tp tsp (.simple rename i1 i2))
                  ⟨(freshSegs pfx2.segs s.nextId).1, pfx2.span⟩ cid (rebuildVis vis) idnt
                  { s with nextId := (freshSegs pfx2.segs s.nextId).2 }).2.2.2) := by
        conv_lhs => rw [lowerUseTrees]
      set child := lowerUseTree rv (.mk tp tsp (.simple rename i1 i2))
        ⟨(freshSegs pfx2.segs s.nextId).1, pfx2.span⟩ cid (rebuildVis vis) idnt
        { s with nextId := (freshSegs pfx2.segs s.nextId).2 } with hchild
    -- the child's own table effect is empty, so only its item is inserted
      obtain ⟨suffix', hi', hlen', hsingle'⟩ := ih (insertItem
        ⟨cid, child.2.2.1, child.1, child.2.1,
          UseTree.span (.mk tp tsp (.simple rename i1 i2))⟩ child.2.2.2) hrest
      refine ⟨⟨cid, child.2.2.1, child.1, child.2.1,
          UseTree.span (.mk tp tsp (.simple rename i1 i2))⟩ :: suffix', ?_, ?_, ?_⟩
      · rw [hstep, hi']
        simp only [insertItem, ← hchild, hi0]
        simp
      · simp [hlen']
      · intro it hit
        rcases List.mem_cons.mp hit with h | h
        · subst h
          exact hkind
        · exact hsingle' it h
    | globT => simp [isSimpleTree, UseTree.kind] at hsimp
    | nested trees => simp [isSimpleTree, UseTree.kind] at hsimp

/-- C2: the flattening arithmetic.  A nested group whose children are
simple leaves (each with at most one namespace hit) produces exactly one
`Single` import record per leaf plus exactly one `ListStem` record for the
group (so `use m::{a, b}` yields 3 records); a simple leaf with a single
resolution yields exactly 1 record; a glob yields exactly 1 `Glob` record
and consults the per-namespace fan-out service not at all. -/
theorem use_tree_flattening_arithmetic :
    (∀ (rv : Resolver) (tp : Path0) (sp : Nat) (ts : List (UseTree × Nat)) (nid : Nat)
        (vis : Vis) (idnt : String) (s : St),
      (∀ pr ∈ ts, isSimpleTree pr.1 = true ∧ (rv.fromUse pr.2).length ≤ 1) →
      recordsProduced rv (.mk tp sp (.nested ts)) nid vis idnt s = ts.length + 1
      ∧ useKindOf (lowerUseItem rv (.mk tp sp (.nested ts)) nid vis idnt s).1 = .listStem
      ∧ ∀ it ∈ (lowerUseItem rv (.mk tp sp (.nested ts)) nid vis idnt
            s).2.2.2.items.drop s.items.length,
          useKindOf it.kind = .single)
    ∧ (∀ (rv : Resolver) (tp : Path0) (sp : Nat) (rename : Option String)
        (e1 e2 nid : Nat) (vis : Vis) (idnt : String) (s : St),
      (rv.fromUse nid).length = 1 →
      recordsProduced rv (.mk tp sp (.simple rename e1 e2)) nid vis idnt s = 1
      ∧ useKindOf (lowerUseItem rv (.mk tp sp (.simple rename e1 e2)) nid vis idnt s).1
          = .single)
    ∧ (∀ (rv : Resolver) (tp : Path0) (sp nid : Nat) (vis : Vis) (idnt : String) (s : St),
      recordsProduced rv (.mk tp sp .globT) nid vis idnt s = 1
      ∧ useKindOf (lowerUseItem rv (.mk tp sp .globT) nid vis idnt s).1 = .globK
      ∧ (lowerUseItem rv (.mk tp sp .globT) nid vis idnt s).2.2.2.fanouts = s.fanouts) := by
  refine ⟨?_, ?_, ?_⟩
  · intro rv tp sp ts nid vis idnt s hh
    obtain ⟨suffix, hi, hlen, hsingle⟩ :=
      lowerUseTrees_simple_children rv ⟨[] ++ tp.segs, (⟨[], UseTree.span
        (.mk tp sp (.nested ts))⟩ : Path0).span⟩ vis idnt ts s hh
    have hunfold : (lowerUseItem rv (.mk tp sp (.nested ts)) nid vis idnt s).2.2.2.items
        = (lowerUseTrees rv ts ⟨[] ++ tp.segs, (⟨[], UseTree.span
            (.mk tp sp (.nested ts))⟩ : Path0).span⟩ vis idnt s).items := by
      simp [lowerUseItem, lowerUseTree, consultFromUse]
    refine ⟨?_, ?_, ?_⟩
    · unfold recordsProduced
      rw [hunfold, hi]
      simp only [List.length_append, hlen]
      omega
    · simp [lowerUseItem, lowerUseTree, useKindOf]
    · intro it hit
      rw [hunfold, hi, List.drop_left] at hit
      exact hsingle it hit
  · intro rv tp sp rename e1 e2 nid vis idnt s hone
    obtain ⟨_, hkind, suffix, hi, hslen, _, _, _⟩ :=
      lowerUseTree_simple_spec rv tp sp
        rename e1 e2 nid ⟨[], (UseTree.mk tp sp (.simple rename e1 e2)).span⟩ vis idnt s
    refine ⟨?_, hkind⟩
    unfold recordsProduced lowerUseItem
    rw [hi]
    simp only [List.length_append, hslen, hone]
    simp
  · intro rv tp sp nid vis idnt s
    refine ⟨?_, rfl, rfl⟩
    unfold recordsProduced lowerUseItem
    simp [lowerUseTree]

/-- Witness for C2 at the spec's example `pub use m::{a, b}` with singly
resolved leaves: exactly 3 records, the group's own record a `ListStem`,
the leaves `Single`; and the aliased-leaf and glob shapes each yield 1. -/
theorem use_tree_flattening_arithmetic_witness :
    (∀ pr ∈ [((UseTree.mk ⟨[⟨"a", 1⟩], 102⟩ 103 (.simple none 11 12)), (10 : Nat)),
        ((UseTree.mk ⟨[⟨"b", 2⟩], 104⟩ 105 (.simple none 21 22)), (20 : Nat))],
      isSimpleTree pr.1 = true
      ∧ (((⟨fun _ => [.resolved 7], fun _ => .err⟩ : Resolver).fromUse pr.2).length ≤ 1))
    ∧ recordsProduced ⟨fun _ => [.resolved 7], fun _ => .err⟩
        (.mk ⟨[⟨"m", 0⟩], 100⟩ 101 (.nested
          [((UseTree.mk ⟨[⟨"a", 1⟩], 102⟩ 103 (.simple none 11 12)), 10),
            ((UseTree.mk ⟨[⟨"b", 2⟩], 104⟩ 105 (.simple none 21 22)), 20)]))
        5 .publicVis "" ⟨[], 1000, 0⟩ = 3
    ∧ recordsProduced ⟨fun _ => [.resolved 7], fun _ => .err⟩
        (.mk ⟨[⟨"m", 0⟩, ⟨"a", 1⟩], 100⟩ 101 (.simple (some "c") 11 12))
        5 .publicVis "" ⟨[], 1000, 0⟩ = 1
    ∧ recordsProduced ⟨fun _ => [.resolved 7], fun _ => .err⟩
        (.mk ⟨[⟨"m", 0⟩], 100⟩ 101 .globT) 5 .publicVis "" ⟨[], 1000, 0⟩ = 1 :=
  ⟨by decide,
    (use_tree_flattening_arithmetic.1 ⟨fun _ => [.resolved 7], fun _ => .err⟩
      ⟨[⟨"m", 0⟩], 100⟩ 101
      [((UseTree.mk ⟨[⟨"a", 1⟩], 102⟩ 103 (.simple none 11 12)), 10),
        ((UseTree.mk ⟨[⟨"b", 2⟩], 104⟩ 105 (.simple none 21 22)), 20)]
      5 .publicVis "" ⟨[], 1000, 0⟩ (by decide)).1,
    (use_tree_flattening_arithmetic.2.1 ⟨fun _ => [.resolved 7], fun _ => .err⟩
      ⟨[⟨"m", 0⟩, ⟨"a", 1⟩], 100⟩ 101 (some "c") 11 12 5 .publicVis "" ⟨[], 1000, 0⟩
      rfl).1,
    (use_tree_flattening_arithmetic.2.2 ⟨fun _ => [.resolved 7], fun _ => .err⟩
      ⟨[⟨"m", 0⟩], 100⟩ 101 5 .publicVis "" ⟨[], 1000, 0⟩).1⟩

/-- C3: the synthesized `ListStem` item of a nested use-tree group has its
visibility demoted to the inherited (private) form for a public, crate, or
already-inherited original visibility, while a restricted-to-path
visibility is preserved on the `ListStem` unchanged. -/
theorem list_stem_visibility_demotion (rv : Resolver) (tp : Path0) (sp : Nat)
    (ts : List (UseTree × Nat)) (pfx : Path0) (nid : Nat) (idnt : String) (s : St) :
    (lowerUseTree rv (.mk tp sp (.nested ts)) pfx nid .publicVis idnt s).2.1
        = .inheritedVis
    ∧ (lowerUseTree rv (.mk tp sp (.nested ts)) pfx nid .crateVis idnt s).2.1
        = .inheritedVis
    ∧ (lowerUseTree rv (.mk tp sp (.nested ts)) pfx nid .inheritedVis idnt s).2.1
        = .inheritedVis
    ∧ ∀ p, (lowerUseTree rv (.mk tp sp (.nested ts)) pfx nid (.restrictedVis p) idnt s).2.1
        = .restrictedVis p := by
  refine ⟨?_, ?_, ?_, fun p => ?_⟩ <;> simp [lowerUseTree]

end UseTrees

end ItemLowering
